import Mathlib

/-!
Verification of the concurrency primitives of the `cpp_thread_learning`
repository, as a shallow embedding in Lean 4.

Each C++ class is translated into an explicit state type; member functions
that mutate state become state-passing functions.  Machine integers
(`unsigned long`) are modelled as `Nat`, with `ULONG_MAX = 2^64 - 1` standing
for the platform constant.  Thread identifiers (`std::thread::id`) and mutex
identities (`std::mutex *`) are modelled as `Nat`.  Fallible operations
(C++ `throw`) return the unchanged state together with an `Option String`
carrying the exception message.
-/

namespace CppThreadLearning

/-- The constant `ULONG_MAX` from `<climits>` on an LP64 platform. -/
def ULONG_MAX : Nat := 2 ^ 64 - 1

/-! ## Hierarchical mutex (`src/05_dead_lock/src/hierarchical_mutex.cpp`)

The thread-local `previous_hierarchy_level` of the calling thread and the
state of the underlying `std::mutex` are part of the embedded state. -/

/-- State of a `HierarchicalMutex` together with the calling thread's
thread-local `previous_hierarchy_level`. -/
structure HierarchicalMutex where
  /-- the `const unsigned long hierarchy_level` of this lock. -/
  hierarchy_level : Nat
  /-- whether the underlying `std::mutex mutex` is currently held. -/
  mutexLocked : Bool
  /-- the calling thread's thread-local `previous_hierarchy_level`
  (initialised to `ULONG_MAX` at thread start). -/
  previous_hierarchy_level : Nat
  deriving DecidableEq, Repr

namespace HierarchicalMutex

/-- Embeds `HierarchicalMutex::lock`.  Throws (`some msg`) when
`previous_hierarchy_level <= hierarchy_level`, leaving the state untouched;
otherwise acquires the mutex and sets
`previous_hierarchy_level := hierarchy_level`. -/
def lock (s : HierarchicalMutex) : HierarchicalMutex × Option String :=
  if s.previous_hierarchy_level ≤ s.hierarchy_level then
    (s, some "Mutex hierarchy violated")
  else
    ({ s with mutexLocked := true,
              previous_hierarchy_level := s.hierarchy_level }, none)

/-- Embeds `HierarchicalMutex::unlock`.  The source sets
`previous_hierarchy_level = hierarchy_level` (the lock's own level) and
releases the mutex; no previously captured value exists in the class. -/
def unlock (s : HierarchicalMutex) : HierarchicalMutex :=
  { s with previous_hierarchy_level := s.hierarchy_level,
           mutexLocked := false }

/-- Embeds `HierarchicalMutex::try_lock`.  Returns `false` without touching the
mutex when the hierarchy check fails; otherwise acquires the mutex iff it is
free. -/
def try_lock (s : HierarchicalMutex) : HierarchicalMutex × Bool :=
  if s.previous_hierarchy_level ≤ s.hierarchy_level then
    (s, false)
  else if s.mutexLocked then
    (s, false)
  else
    ({ s with mutexLocked := true,
              previous_hierarchy_level := s.hierarchy_level }, true)

end HierarchicalMutex

/-! ## Priority worker pool (`src/06_thread_pool/src/main.cpp`)

A submitted callable is wrapped in a `std::packaged_task` held through a
`shared_ptr`; the queued `std::function<void()>` invokes it.  The outcome of
running a callable is modelled as `Except String α` (`.error` = the callable
throws).  A task's future can end up holding a value, holding a stored
exception, or reporting a broken promise when the packaged task is destroyed
without ever being invoked (the fate of a popped-and-dropped task). -/

/-- Terminal state of the `std::future` associated with a submitted task. -/
inductive FutureState (α : Type) where
  /-- the `promise` has not been satisfied yet. -/
  | pending
  /-- the callable returned this value; `future.get()` returns it. -/
  | value (v : α)
  /-- the callable threw; `future.get()` rethrows the stored exception. -/
  | storedError (e : String)
  /-- the `packaged_task` was destroyed without being invoked;
  `future.get()` throws `std::future_error(broken_promise)`. -/
  | brokenPromise
  deriving DecidableEq, Repr

/-- The atomic statistics counters of `ThreadPool`. -/
structure PoolCounters where
  active_threads : Int
  completed_tasks : Nat
  failed_tasks : Nat
  timeout_tasks : Nat
  cancelled_tasks : Nat
  deriving DecidableEq, Repr

/-- Invoking a `std::packaged_task` runs the callable and stores its outcome
(return value or thrown exception) into the shared state; the invocation
itself returns normally in both cases (`[futures.task.members]`: the thrown
exception is caught and stored).  The second component is what the worker's
`task()` call observes. -/
def runPackagedTask {α : Type} (outcome : Except String α) :
    FutureState α × Except String Unit :=
  (match outcome with
    | .ok v => .value v
    | .error e => .storedError e,
   .ok ())

/-- The execute branch of `ThreadPool::worker_thread` (lines 117-138): bump
`active_threads`, call `task()` inside `try`/`catch` — bumping
`completed_tasks` on normal return and `failed_tasks` on a caught exception —
then decrement `active_threads`. -/
def worker_execute {α : Type} (outcome : Except String α)
    (c : PoolCounters) : PoolCounters × FutureState α :=
  let c1 := { c with active_threads := c.active_threads + 1 }
  let r := runPackagedTask outcome
  let c2 :=
    match r.2 with
    | .ok _ => { c1 with completed_tasks := c1.completed_tasks + 1 }
    | .error _ => { c1 with failed_tasks := c1.failed_tasks + 1 }
  ({ c2 with active_threads := c2.active_threads - 1 }, r.1)

/-- A `ThreadPool::Task` whose callable's behaviour, when run, is
`func`. -/
structure PoolTask (α : Type) where
  func : Except String α
  priority : Int
  /-- absolute `steady_clock` deadline. -/
  deadline : Nat
  cancelled : Bool
  deriving Repr

/-- One iteration of `ThreadPool::worker_thread` (lines 93-138) acting on the
top task `t` of a non-empty queue at time `now`: a past-deadline task is
popped and counted in `timeout_tasks`, a cancelled task is popped and counted
in `cancelled_tasks` — in both cases the popped `Task` (sole owner of the
`packaged_task`) is destroyed without invoking it, breaking the promise —
otherwise the task is popped and executed. -/
def worker_pop_step {α : Type} (t : PoolTask α) (now : Nat)
    (c : PoolCounters) : PoolCounters × FutureState α :=
  if t.deadline < now then
    ({ c with timeout_tasks := c.timeout_tasks + 1 }, .brokenPromise)
  else if t.cancelled then
    ({ c with cancelled_tasks := c.cancelled_tasks + 1 }, .brokenPromise)
  else
    worker_execute t.func c

/-! ## Bounded blocking queue (`src/03_produce_consume/src/main.cpp`)

`produce` commits its append only once the predicate of the `not_full`
condition wait, `queue.size() < capacity`, holds; `consume` commits its
removal only once `!queue.empty()` holds.  A finite interleaving of committed
operations is a list of events applied in commit order; an event whose wait
predicate is false cannot commit (the thread stays blocked), which the step
function signals with `none`. -/

/-- One committed operation on a `ThreadSafeQueue`. -/
inductive QueueEvent (α : Type) where
  | produce (item : α)
  | consume
  deriving Repr

/-- The commit of `ThreadSafeQueue::produce`: guarded by the `not_full` wait
predicate `queue.size() < capacity`, then `queue.push(item)`. -/
def produceCommit {α : Type} (capacity : Nat) (q : List α) (item : α) :
    Option (List α) :=
  if q.length < capacity then some (q ++ [item]) else none

/-- The commit of `ThreadSafeQueue::consume`: guarded by the `not_empty` wait
predicate `!queue.empty()`, then `queue.front()` / `queue.pop()`. -/
def consumeCommit {α : Type} (q : List α) : Option (List α) :=
  if q.isEmpty then none else some q.tail

/-- Apply a finite interleaving of committed queue operations in commit
order; `none` if some event's wait predicate is false at its turn. -/
def applyQueueEvents {α : Type} (capacity : Nat) :
    List (QueueEvent α) → List α → Option (List α)
  | [], q => some q
  | .produce a :: rest, q =>
      match produceCommit capacity q a with
      | some q' => applyQueueEvents capacity rest q'
      | none => none
  | .consume :: rest, q =>
      match consumeCommit q with
      | some q' => applyQueueEvents capacity rest q'
      | none => none

/-- Number of `produce` events in an interleaving. -/
def producedCount {α : Type} : List (QueueEvent α) → Nat
  | [] => 0
  | .produce _ :: rest => producedCount rest + 1
  | .consume :: rest => producedCount rest

/-- Number of `consume` events in an interleaving. -/
def consumedCount {α : Type} : List (QueueEvent α) → Nat
  | [] => 0
  | .produce _ :: rest => consumedCount rest
  | .consume :: rest => consumedCount rest + 1

/-! ## Reader-writer cache (`src/04_shared_mutex/src/main.cpp`)

The `std::unordered_map<K, V> cache` is modelled as `K → Option V`; `read`
additionally reports whether it invoked `loadFromDB` (the loader), which in
the source returns `V{}` (modelled through `Inhabited`). -/

/-- Embeds `ThreadSafeCache::loadFromDB`: returns a default-constructed `V{}`. -/
def loadFromDB {K V : Type} [Inhabited V] (_ : K) : V := default

/-- Embeds `ThreadSafeCache::write`: `cache[key] = value` (insert or overwrite). -/
def cacheWrite {K V : Type} [DecidableEq K] (c : K → Option V) (key : K)
    (value : V) : K → Option V :=
  fun k => if k = key then some value else c k

/-- Embeds `ThreadSafeCache::read`: shared-lookup hit returns the stored value
without calling the loader; a miss calls `loadFromDB` and commits
`insert_or_assign(key, value)`.  Returns (result, loader-invoked?, new
cache). -/
def cacheRead {K V : Type} [DecidableEq K] [Inhabited V] (c : K → Option V)
    (key : K) : V × Bool × (K → Option V) :=
  match c key with
  | some v => (v, false, c)
  | none =>
      let value := loadFromDB key
      (value, true, cacheWrite c key value)

/-- An operation on the cache by some thread in the committed order. -/
inductive CacheOp (K V : Type) where
  | write (key : K) (value : V)
  | read (key : K)

/-- Does the operation write to `k`? (`read` never counts, even though its
miss path commits an `insert_or_assign` for its own key.) -/
def writesKey {K V : Type} [DecidableEq K] (k : K) : CacheOp K V → Bool
  | .write key _ => key = k
  | .read _ => false

/-- Run a sequence of cache operations in commit order. -/
def runCacheOps {K V : Type} [DecidableEq K] [Inhabited V] :
    List (CacheOp K V) → (K → Option V) → (K → Option V)
  | [], c => c
  | .write key value :: rest, c => runCacheOps rest (cacheWrite c key value)
  | .read key :: rest, c => runCacheOps rest (cacheRead c key).2.2

/-! ## Resource graph (`src/05_dead_lock/src/resource_graph.cpp`)

`std::map<std::thread::id, std::set<std::mutex *>>` is modelled as an
association list `List (Nat × List Nat)`; the outer list records exactly
which thread keys are present (the pruning invariant is about key presence),
and each `std::set<std::mutex *>` is a duplicate-free list with set-semantics
operations (`insert` is a no-op on a present element, `erase` removes the
element).  `operator[]` on a missing key inserts an empty set — `mapAccess`
and `mapSetOp` reproduce that effect.  Element/key ordering (`std::map` and
`std::set` keep keys sorted) only affects iteration order, which the
correctness theorem below proves immaterial to `hasDeadlock`'s result. -/

/-- Association-list model of
`std::map<std::thread::id, std::set<std::mutex *>>`. -/
abbrev LockSetMap := List (Nat × List Nat)

/-- The read `m.find(k)`: the set stored at `k`, or the empty set when `k` is
absent. -/
def lookupD : LockSetMap → Nat → List Nat
  | [], _ => []
  | (k', s) :: rest, k => if k' = k then s else lookupD rest k

/-- The test `m.find(k) != m.end()`: is the key present? -/
def containsKey : LockSetMap → Nat → Bool
  | [], _ => false
  | (k', _) :: rest, k => if k' = k then true else containsKey rest k

/-- The key-creating effect of `m[k]` read in a context that does not modify
the set: inserts `(k, ∅)` when `k` is absent. -/
def mapAccess (m : LockSetMap) (k : Nat) : LockSetMap :=
  if containsKey m k then m else m ++ [(k, [])]

/-- Access `m[k]` followed by a set operation `f` on the referenced set
(`insert`/`erase` on the `std::set`). -/
def mapSetOp : LockSetMap → Nat → (List Nat → List Nat) → LockSetMap
  | [], k, f => [(k, f [])]
  | (k', s) :: rest, k, f =>
      if k' = k then (k', f s) :: rest else (k', s) :: mapSetOp rest k f

/-- Embeds `m.erase(k)`: drop the entry for key `k`. -/
def mapEraseKey : LockSetMap → Nat → LockSetMap
  | [], _ => []
  | (k', s) :: rest, k =>
      if k' = k then mapEraseKey rest k else (k', s) :: mapEraseKey rest k

/-- Embeds `std::set::erase(key)`: remove the element. -/
def setErase (s : List Nat) (x : Nat) : List Nat :=
  s.filter (fun y => y != x)

/-- The two edge maps of `ResourceGraph`. -/
structure ResourceGraph where
  thread_holds : LockSetMap
  thread_waits : LockSetMap
  deriving DecidableEq

/-- Embeds `ResourceGraph::acquireLock`: `thread_holds[tid].insert(mtx)`. -/
def acquireLock (g : ResourceGraph) (tid mtx : Nat) : ResourceGraph :=
  { g with thread_holds := mapSetOp g.thread_holds tid (List.insert mtx) }

/-- Embeds `ResourceGraph::releaseLock`: `thread_holds[tid].erase(mtx)`, then prune
the key if its set became empty. -/
def releaseLock (g : ResourceGraph) (tid mtx : Nat) : ResourceGraph :=
  let h := mapSetOp g.thread_holds tid (fun s => setErase s mtx)
  { g with thread_holds := if lookupD h tid = [] then mapEraseKey h tid else h }

/-- Embeds `ResourceGraph::waitForLock`: `thread_waits[tid].insert(mtx)`. -/
def waitForLock (g : ResourceGraph) (tid mtx : Nat) : ResourceGraph :=
  { g with thread_waits := mapSetOp g.thread_waits tid (List.insert mtx) }

/-- Embeds `ResourceGraph::stopWaiting`: `thread_waits[tid].erase(mtx)`, then prune
the key if its set became empty. -/
def stopWaiting (g : ResourceGraph) (tid mtx : Nat) : ResourceGraph :=
  let w := mapSetOp g.thread_waits tid (fun s => setErase s mtx)
  { g with thread_waits := if lookupD w tid = [] then mapEraseKey w tid else w }

/-- Result of one `hasCycle` call: (cycle found, `visited`,
`recursion_stack`, `thread_waits`) — the three by-reference/member states
threaded explicitly. -/
abbrev DFSResult := Bool × Finset Nat × Finset Nat × LockSetMap

/-- The inner loop of `ResourceGraph::hasCycle` over the entries of
`thread_holds`, looking for holders of `lock`: an unvisited holder is
recursed into (through `rec`), a holder on the recursion stack reports a
cycle, any other visited holder is skipped. -/
def cycleHoldersLoop
    (rec : Nat → Finset Nat → Finset Nat → LockSetMap → Option DFSResult)
    (lock : Nat) :
    LockSetMap → Finset Nat → Finset Nat → LockSetMap → Option DFSResult
  | [], visited, stack, waits => some (false, visited, stack, waits)
  | (tid, held) :: rest, visited, stack, waits =>
      if lock ∈ held then
        if tid ∉ visited then
          match rec tid visited stack waits with
          | none => none
          | some (true, v, s, w) => some (true, v, s, w)
          | some (false, v, s, w) => cycleHoldersLoop rec lock rest v s w
        else if tid ∈ stack then some (true, visited, stack, waits)
        else cycleHoldersLoop rec lock rest visited stack waits
      else cycleHoldersLoop rec lock rest visited stack waits

/-- The outer loop of `ResourceGraph::hasCycle` over the locks the current
thread is waiting for. -/
def cycleLocksLoop
    (rec : Nat → Finset Nat → Finset Nat → LockSetMap → Option DFSResult)
    (holds : LockSetMap) :
    List Nat → Finset Nat → Finset Nat → LockSetMap → Option DFSResult
  | [], visited, stack, waits => some (false, visited, stack, waits)
  | lock :: rest, visited, stack, waits =>
      match cycleHoldersLoop rec lock holds visited stack waits with
      | none => none
      | some (true, v, s, w) => some (true, v, s, w)
      | some (false, v, s, w) => cycleLocksLoop rec holds rest v s w

/-- Embeds `ResourceGraph::hasCycle`: mark `current` visited and on the recursion
stack, read `thread_waits[current]` (whose `operator[]` inserts an empty set
for an absent key), run the two loops, and pop `current` from the stack on a
cycle-free return.  C++ recursion depth is bounded by the number of threads;
`fuel` bounds it in the embedding (`none` = fuel exhausted, which the spec
lemma below proves unreachable for sufficient fuel). -/
def hasCycle : Nat → LockSetMap → Nat → Finset Nat → Finset Nat → LockSetMap →
    Option DFSResult
  | 0, _, _, _, _, _ => none
  | fuel + 1, holds, current, visited, stack, waits =>
      let visited' := insert current visited
      let stack' := insert current stack
      let waits' := mapAccess waits current
      match cycleLocksLoop (fun t v s w => hasCycle fuel holds t v s w) holds
          (lookupD waits' current) visited' stack' waits' with
      | none => none
      | some (true, v, s, w) => some (true, v, s, w)
      | some (false, v, s, w) => some (false, v, s.erase current, w)

/-- The loop of `ResourceGraph::hasDeadlock` over the threads of
`thread_holds`, with enough fuel for every `hasCycle` call (one unit per
distinct thread plus one). -/
def hasDeadlockLoop (holds : LockSetMap) :
    LockSetMap → Finset Nat → Finset Nat → LockSetMap → Bool × LockSetMap
  | [], _, _, waits => (false, waits)
  | (tid, _) :: rest, visited, stack, waits =>
      if tid ∉ visited then
        match hasCycle (holds.length + 1) holds tid visited stack waits with
        | none => (false, waits)
        | some (true, _, _, w) => (true, w)
        | some (false, v, s, w) => hasDeadlockLoop holds rest v s w
      else hasDeadlockLoop holds rest visited stack waits

/-- Embeds `ResourceGraph::hasDeadlock` together with its side effect on
`thread_waits` (the `operator[]` accesses inside `hasCycle` can insert
empty-set entries). -/
def hasDeadlockRun (g : ResourceGraph) : Bool × ResourceGraph :=
  let r := hasDeadlockLoop g.thread_holds g.thread_holds ∅ ∅ g.thread_waits
  (r.1, { g with thread_waits := r.2 })

/-- The boolean result of `ResourceGraph::hasDeadlock`. -/
def hasDeadlock (g : ResourceGraph) : Bool := (hasDeadlockRun g).1

/-! ### Pruning invariant (claim C5) -/

/-- Every present key maps to a non-empty set. -/
def PrunedMap (m : LockSetMap) : Prop := ∀ p ∈ m, p.2 ≠ []

instance (m : LockSetMap) : Decidable (PrunedMap m) :=
  inferInstanceAs (Decidable (∀ p ∈ m, p.2 ≠ []))

/-- The pruning invariant on both maps of the graph. -/
def Pruned (g : ResourceGraph) : Prop :=
  PrunedMap g.thread_holds ∧ PrunedMap g.thread_waits

instance (g : ResourceGraph) : Decidable (Pruned g) :=
  inferInstanceAs
    (Decidable (PrunedMap g.thread_holds ∧ PrunedMap g.thread_waits))

/-! ## Tracked mutex (`src/05_dead_lock/src/tracked_mutex.cpp`)

The wrapper's state bundles the identity and held-state of the underlying
`std::mutex *mtx`, the pointed-to `ResourceGraph`, and the `locked` flag;
`tid` is the calling/owning thread. -/

/-- State of a `TrackedMutex` and of what it points to. -/
structure TrackedMutex where
  /-- identity of the underlying `std::mutex *mtx`. -/
  mtx : Nat
  /-- whether that underlying mutex is currently held. -/
  mtxHeld : Bool
  /-- the pointed-to `ResourceGraph *graph`. -/
  graph : ResourceGraph
  /-- the `locked` flag. -/
  locked : Bool
  deriving DecidableEq

namespace TrackedMutex

/-- Embeds `TrackedMutex::unlock`: if `locked`, remove the hold edge
(`graph->releaseLock(mtx)`), release the mutex, clear `locked`; otherwise do
nothing. -/
def unlock (t : TrackedMutex) (tid : Nat) : TrackedMutex :=
  if t.locked then
    { t with graph := releaseLock t.graph tid t.mtx,
             mtxHeld := false, locked := false }
  else t

/-- Embeds `TrackedMutex::~TrackedMutex`: if `locked`, call `unlock()`.  C++ runs
this on every exit path from the owning scope. -/
def destruct (t : TrackedMutex) (tid : Nat) : TrackedMutex :=
  if t.locked then t.unlock tid else t

end TrackedMutex

/-! ### Cycle-detection correctness (claim C3)

The wait-for graph of a snapshot `(holds, waits)` has an edge `t → t'`
whenever thread `t` waits for some lock `L` held by thread `t'`.  A deadlock
cycle `T₀ → L₀ → T₁ → … → Tₙ = T₀` of the claim is exactly a `TransGen`
cycle of this edge relation.  The edge relation is phrased against an
abstract lookup function `W` for the waits map because `hasCycle` mutates
`thread_waits` through `operator[]` — `lookupD_mapAccess` shows those
mutations never change any lookup, so `W` stays fixed along the search. -/

/-- The thread keys present in a map. -/
def holdKeys (m : LockSetMap) : Finset Nat := (m.map Prod.fst).toFinset

/-- A real `std::map` has no duplicate keys. -/
def NodupKeys (m : LockSetMap) : Prop := (m.map Prod.fst).Nodup

instance (m : LockSetMap) : Decidable (NodupKeys m) :=
  inferInstanceAs (Decidable (m.map Prod.fst).Nodup)

/-- Wait-for edge: `t` waits for a lock that `t'` holds. -/
def EdgeFn (holds : LockSetMap) (W : Nat → List Nat) (t t' : Nat) : Prop :=
  ∃ L, L ∈ W t ∧ L ∈ lookupD holds t'

/-- Thread `t` cannot reach any thread that lies on a cycle (so in particular no
cycle passes through `t` or through anything `t` can reach). -/
def SafeFrom (holds : LockSetMap) (W : Nat → List Nat) (t : Nat) : Prop :=
  ∀ u, Relation.ReflTransGen (EdgeFn holds W) t u →
    ¬ Relation.TransGen (EdgeFn holds W) u u

/-- The cycle notion of the claim, for a graph snapshot. -/
def GraphHasCycle (g : ResourceGraph) : Prop :=
  ∃ t, Relation.TransGen
    (EdgeFn g.thread_holds (lookupD g.thread_waits)) t t

/-- Each lock is held by at most one thread (claim hypothesis). -/
def AtMostOneHolder (holds : LockSetMap) : Prop :=
  ∀ p ∈ holds, ∀ q ∈ holds, ∀ L, L ∈ p.2 → L ∈ q.2 → p = q

instance (holds : LockSetMap) : Decidable (AtMostOneHolder holds) :=
  inferInstanceAs
    (Decidable (∀ p ∈ holds, ∀ q ∈ holds, ∀ L, L ∈ p.2 → L ∈ q.2 → p = q))

/-- What one `hasCycle` call guarantees at recursion budget `n`: whenever
`cur` is an unvisited thread of the holds map, the grey stack is contained in
the visited set and chains to `cur` through wait-for edges, every black
(visited, off-stack) thread is safe, every waits lookup agrees with `W`, and
the budget exceeds the number of unexplored threads — then the call returns:
a `true` answer exhibits a cycle, a `false` answer restores the stack,
preserves all lookups, and leaves every newly black thread safe. -/
def CycleCallSpec (holds : LockSetMap) (W : Nat → List Nat) (n : Nat)
    (rec : Nat → Finset Nat → Finset Nat → LockSetMap → Option DFSResult) :
    Prop :=
  ∀ cur vis stk waits,
    cur ∈ holdKeys holds → cur ∉ vis → stk ⊆ vis →
    (holdKeys holds \ vis).card < n →
    (∀ t ∈ vis, t ∉ stk → SafeFrom holds W t) →
    (∀ x ∈ stk, Relation.ReflTransGen (EdgeFn holds W) x cur) →
    (∀ k, lookupD waits k = W k) →
    ∃ b v s w, rec cur vis stk waits = some (b, v, s, w)
      ∧ vis ⊆ v ∧ cur ∈ v
      ∧ (∀ k, lookupD w k = W k)
      ∧ (b = true → ∃ t, Relation.TransGen (EdgeFn holds W) t t)
      ∧ (b = false → s = stk ∧ ∀ t ∈ v, t ∉ stk → SafeFrom holds W t)

/-! ## Theorems -/

/-- C6: `lock()` raises the hierarchy violation exactly when
`previous_hierarchy_level ≤ hierarchy_level`; the violating case leaves the
underlying mutex and `previous_hierarchy_level` unchanged (the check precedes
any mutex operation, so a violating acquire never blocks); on success the
mutex is acquired and `previous_hierarchy_level` becomes the lock's level. -/
theorem hierarchical_lock_violation_iff (s : HierarchicalMutex) :
    ((s.lock.2.isSome ↔ s.previous_hierarchy_level ≤ s.hierarchy_level)
      ∧ (s.previous_hierarchy_level ≤ s.hierarchy_level → s.lock.1 = s))
    ∧ (s.hierarchy_level < s.previous_hierarchy_level →
        s.lock.2 = none
          ∧ s.lock.1.mutexLocked = true
          ∧ s.lock.1.previous_hierarchy_level = s.hierarchy_level) := by
  unfold HierarchicalMutex.lock
  constructor
  · constructor
    · by_cases h : s.previous_hierarchy_level ≤ s.hierarchy_level <;>
        simp [h]
    · intro h; simp [h]
  · intro h
    have h' : ¬ s.previous_hierarchy_level ≤ s.hierarchy_level :=
      not_le.mpr h
    simp [h']

/-- Witness for C6 at a concrete state: level 5, thread-local previous level
`ULONG_MAX`. -/
theorem hierarchical_lock_violation_iff_witness :
    let s : HierarchicalMutex := ⟨5, false, ULONG_MAX⟩
    s.hierarchy_level < s.previous_hierarchy_level
      ∧ (s.lock.2 = none ∧ s.lock.1.mutexLocked = true
          ∧ s.lock.1.previous_hierarchy_level = s.hierarchy_level) :=
  ⟨by decide, (hierarchical_lock_violation_iff ⟨5, false, ULONG_MAX⟩).2
      (by decide)⟩

/-- C1 (failing input): starting from a fresh thread
(`previous_hierarchy_level = ULONG_MAX`), acquiring a level-5 lock and then
releasing it leaves `previous_hierarchy_level = 5`, not the value
`ULONG_MAX` it had at the moment of the acquire: `unlock` writes the lock's
own level instead of restoring a captured value (no capture exists in the
class). -/
theorem hierarchical_unlock_does_not_restore :
    let s0 : HierarchicalMutex := ⟨5, false, ULONG_MAX⟩
    (s0.lock.1.unlock).previous_hierarchy_level = 5
      ∧ s0.previous_hierarchy_level = ULONG_MAX
      ∧ (5 : Nat) ≠ ULONG_MAX := by
  refine ⟨by decide, by decide, by decide⟩

/-- C10: for a lock whose level is `ULONG_MAX`, every thread state with
`previous_hierarchy_level ≤ ULONG_MAX` (always true for an `unsigned long`)
fails the hierarchy check, so `lock()` always throws and `try_lock()` always
returns `false`, leaving the state unchanged. -/
theorem hierarchical_ulong_max_never_acquirable (s : HierarchicalMutex)
    (hlvl : s.hierarchy_level = ULONG_MAX)
    (hprev : s.previous_hierarchy_level ≤ ULONG_MAX) :
    s.lock.2.isSome ∧ s.lock.1 = s ∧ s.try_lock.2 = false
      ∧ s.try_lock.1 = s := by
  have h : s.previous_hierarchy_level ≤ s.hierarchy_level := hlvl ▸ hprev
  unfold HierarchicalMutex.lock HierarchicalMutex.try_lock
  simp [h]

/-- Witness for C10 at the initial thread state. -/
theorem hierarchical_ulong_max_never_acquirable_witness :
    let s : HierarchicalMutex := ⟨ULONG_MAX, false, ULONG_MAX⟩
    (s.hierarchy_level = ULONG_MAX ∧ s.previous_hierarchy_level ≤ ULONG_MAX)
      ∧ (s.lock.2.isSome ∧ s.lock.1 = s ∧ s.try_lock.2 = false
          ∧ s.try_lock.1 = s) :=
  ⟨⟨by decide, by decide⟩,
    hierarchical_ulong_max_never_acquirable ⟨ULONG_MAX, false, ULONG_MAX⟩
      (by decide) (by decide)⟩

/-- C2 (failing input): a task whose callable throws.  The
`packaged_task` wrapper stores the exception and returns normally, so the
worker's `try` block sees a normal return: `completed_tasks` is incremented
and `failed_tasks` is left unchanged — the dead `catch` never fires — while
the error is still delivered through the future. -/
theorem worker_throwing_task_counts_completed :
    let c0 : PoolCounters := ⟨0, 0, 0, 0, 0⟩
    let r := worker_execute (α := Nat) (.error "boom") c0
    r.1.completed_tasks = 1 ∧ r.1.failed_tasks = 0
      ∧ r.2 = .storedError "boom" ∧ r.1.active_threads = 0 := by
  refine ⟨rfl, rfl, rfl, rfl⟩

/-- C4 (counterexample): a task with a past deadline is popped and
`timeout_tasks` is incremented, but its future ends in a broken promise —
exactly the same observable future state a cancelled task produces — rather
than any dedicated timed-out indication carrying information. -/
theorem worker_timeout_future_is_broken_promise :
    let c0 : PoolCounters := ⟨0, 0, 0, 0, 0⟩
    let tTimed : PoolTask Nat := ⟨.ok 42, 1, 5, false⟩
    let tCanc : PoolTask Nat := ⟨.ok 43, 1, 100, true⟩
    (worker_pop_step tTimed 10 c0).1.timeout_tasks = 1
      ∧ (worker_pop_step tTimed 10 c0).2 = .brokenPromise
      ∧ (worker_pop_step tCanc 10 c0).2 = .brokenPromise
      ∧ (worker_pop_step tTimed 10 c0).2 = (worker_pop_step tCanc 10 c0).2
      ∧ (∀ v : Nat, (worker_pop_step tTimed 10 c0).2 ≠ .value v) := by
  refine ⟨rfl, rfl, rfl, rfl, ?_⟩
  intro v h
  exact FutureState.noConfusion h

/-- C4 (amended): when the top task's deadline is in the past the worker pops
it and increments `timeout_tasks` by exactly one, leaves the other outcome
counters unchanged, never runs the callable, and the task's future reports a
broken promise (indistinguishable from a cancelled task's future). -/
theorem worker_timeout_step {α : Type} (t : PoolTask α) (now : Nat)
    (c : PoolCounters) (h : t.deadline < now) :
    (worker_pop_step t now c).1.timeout_tasks = c.timeout_tasks + 1
      ∧ (worker_pop_step t now c).1.completed_tasks = c.completed_tasks
      ∧ (worker_pop_step t now c).1.failed_tasks = c.failed_tasks
      ∧ (worker_pop_step t now c).1.cancelled_tasks = c.cancelled_tasks
      ∧ (worker_pop_step t now c).2 = .brokenPromise := by
  unfold worker_pop_step
  simp [h]

/-- Witness for the amended C4 at a concrete timed-out task. -/
theorem worker_timeout_step_witness :
    (5 : Nat) < 10
      ∧ ((worker_pop_step (α := Nat) ⟨.ok 42, 1, 5, false⟩ 10
            ⟨0, 0, 0, 0, 0⟩).1.timeout_tasks = 0 + 1
        ∧ (worker_pop_step (α := Nat) ⟨.ok 42, 1, 5, false⟩ 10
            ⟨0, 0, 0, 0, 0⟩).1.completed_tasks = 0
        ∧ (worker_pop_step (α := Nat) ⟨.ok 42, 1, 5, false⟩ 10
            ⟨0, 0, 0, 0, 0⟩).1.failed_tasks = 0
        ∧ (worker_pop_step (α := Nat) ⟨.ok 42, 1, 5, false⟩ 10
            ⟨0, 0, 0, 0, 0⟩).1.cancelled_tasks = 0
        ∧ (worker_pop_step (α := Nat) ⟨.ok 42, 1, 5, false⟩ 10
            ⟨0, 0, 0, 0, 0⟩).2 = .brokenPromise) :=
  ⟨by decide,
    worker_timeout_step ⟨.ok 42, 1, 5, false⟩ 10 ⟨0, 0, 0, 0, 0⟩
      (by decide)⟩

/-- Size-bound and conservation invariant along any committed
interleaving, generalised over the start state for the induction. -/
theorem applyQueueEvents_invariant {α : Type} (capacity : Nat)
    (evs : List (QueueEvent α)) (q0 q' : List α)
    (h0 : q0.length ≤ capacity)
    (h : applyQueueEvents capacity evs q0 = some q') :
    q'.length ≤ capacity
      ∧ producedCount evs + q0.length = consumedCount evs + q'.length := by
  induction evs generalizing q0 with
  | nil =>
      simp only [applyQueueEvents, Option.some.injEq] at h
      subst h
      simp [producedCount, consumedCount, h0]
  | cons e rest ih =>
      cases e with
      | produce a =>
          simp only [applyQueueEvents] at h
          unfold produceCommit at h
          by_cases hlen : q0.length < capacity
          · simp only [hlen, if_pos] at h
            obtain ⟨hb, hc⟩ := ih (q0 ++ [a]) (by simpa using hlen) h
            refine ⟨hb, ?_⟩
            simp only [producedCount, consumedCount] at *
            simp only [List.length_append, List.length_cons,
              List.length_nil] at hc ⊢
            omega
          · simp [hlen] at h
      | consume =>
          simp only [applyQueueEvents] at h
          unfold consumeCommit at h
          by_cases hemp : q0.isEmpty
          · simp [hemp] at h
          · simp only [hemp, Bool.false_eq_true, if_neg,
              not_false_iff] at h
            have hq0 : q0 ≠ [] := by
              simpa [List.isEmpty_iff] using hemp
            obtain ⟨hb, hc⟩ := ih q0.tail
              (le_trans (by simp [List.length_tail]) h0) h
            refine ⟨hb, ?_⟩
            have htail : q0.tail.length = q0.length - 1 :=
              List.length_tail q0
            have hpos : 0 < q0.length := List.length_pos.mpr hq0
            simp only [producedCount, consumedCount] at *
            omega

/-- C8: for any positive capacity, every finite interleaving of committed
`produce`/`consume` operations starting from the empty queue keeps
`0 ≤ size ≤ capacity` at every observable point (a `produce` cannot commit
while `size = capacity`, a `consume` cannot commit while `size = 0`), and the
number of items produced equals the number consumed plus the number still in
the queue. -/
theorem queue_invariant {α : Type} (capacity : Nat)
    (_hpos : 0 < capacity) (evs : List (QueueEvent α)) (q' : List α)
    (h : applyQueueEvents capacity evs [] = some q') :
    (q'.length ≤ capacity
        ∧ producedCount evs = consumedCount evs + q'.length)
      ∧ (∀ q : List α, ∀ a, q.length = capacity →
          produceCommit capacity q a = none)
      ∧ (∀ q : List α, q.length = 0 → consumeCommit q = none) := by
  obtain ⟨hb, hc⟩ := applyQueueEvents_invariant capacity evs [] q'
    (by simp) h
  refine ⟨⟨hb, by simpa using hc⟩, ?_, ?_⟩
  · intro q a hq
    unfold produceCommit
    simp [hq]
  · intro q hq
    unfold consumeCommit
    simp [List.isEmpty_iff, List.length_eq_zero.mp hq]

/-- Witness for C8: capacity 2, trace produce 7, produce 8, consume,
produce 9. -/
theorem queue_invariant_witness :
    ((0 : Nat) < 2
      ∧ applyQueueEvents 2
          [.produce 7, .produce 8, .consume, .produce 9] ([] : List Nat)
          = some [8, 9])
      ∧ (([8, 9] : List Nat).length ≤ 2
          ∧ producedCount [QueueEvent.produce 7, .produce 8, .consume,
              .produce 9]
            = consumedCount [QueueEvent.produce 7, .produce 8, .consume,
              .produce (9 : Nat)] + ([8, 9] : List Nat).length)
        ∧ (∀ q : List Nat, ∀ a, q.length = 2 → produceCommit 2 q a = none)
        ∧ (∀ q : List Nat, q.length = 0 → consumeCommit q = none) :=
  ⟨⟨by decide, by decide⟩,
    queue_invariant 2 (by decide)
      [.produce 7, .produce 8, .consume, .produce 9] [8, 9] (by decide)⟩

/-- Operations that do not write to `k` preserve the value cached at `k`. -/
theorem runCacheOps_preserves {K V : Type} [DecidableEq K] [Inhabited V]
    (ops : List (CacheOp K V)) (c : K → Option V) (k : K) (v : V)
    (hk : c k = some v) (hops : ∀ op ∈ ops, writesKey k op = false) :
    runCacheOps ops c k = some v := by
  induction ops generalizing c with
  | nil => simpa [runCacheOps] using hk
  | cons op rest ih =>
      have hop := hops op (List.mem_cons_self op rest)
      have hrest : ∀ op ∈ rest, writesKey k op = false := fun o ho =>
        hops o (List.mem_cons_of_mem op ho)
      cases op with
      | write key value =>
          have hne : key ≠ k := by
            simpa [writesKey, decide_eq_false_iff_not] using hop
          refine ih (cacheWrite c key value) ?_ hrest
          simpa [cacheWrite, Ne.symm hne] using hk
      | read key =>
          refine ih (cacheRead c key).2.2 ?_ hrest
          unfold cacheRead
          cases hck : c key with
          | some w => simpa using hk
          | none =>
              have hne : k ≠ key := fun h => by
                rw [h, hck] at hk; exact Option.noConfusion hk
              simpa [cacheWrite, hne] using hk

/-- C9: after `write(k, v)` commits, any later sequence of operations that
never writes to `k` leaves the cache hitting on `k`: a subsequent `read(k)`
returns `v`, does not invoke the loader, and leaves the cache unchanged. -/
theorem cache_read_after_write {K V : Type} [DecidableEq K] [Inhabited V]
    (c0 : K → Option V) (k : K) (v : V) (ops : List (CacheOp K V))
    (hops : ∀ op ∈ ops, writesKey k op = false) :
    cacheRead (runCacheOps ops (cacheWrite c0 k v)) k
      = (v, false, runCacheOps ops (cacheWrite c0 k v)) := by
  have hhit : runCacheOps ops (cacheWrite c0 k v) k = some v :=
    runCacheOps_preserves ops (cacheWrite c0 k v) k v
      (by simp [cacheWrite]) hops
  unfold cacheRead
  rw [hhit]

/-- Witness for C9: write key 1 ↦ 10, then a write to key 2 and reads of
keys 2 and 1 intervene; the final read of key 1 hits with 10. -/
theorem cache_read_after_write_witness :
    (∀ op ∈ ([.write 2 99, .read 2, .read 1] : List (CacheOp Nat Nat)),
        writesKey 1 op = false)
      ∧ cacheRead (runCacheOps [.write 2 99, .read 2, .read 1]
            (cacheWrite (fun _ => none) 1 10)) 1
          = (10, false,
            runCacheOps [.write 2 99, .read 2, .read 1]
              (cacheWrite (fun _ => none) 1 10)) :=
  ⟨by decide,
    cache_read_after_write (fun _ => none) 1 10
      [.write 2 99, .read 2, .read 1] (by decide)⟩

/-- Entries of `mapSetOp m k f` are old entries or carry `f` of the first
set stored at `k` (which is `lookupD m k`, also when `k` is absent). -/
theorem mem_mapSetOp {m : LockSetMap} {k : Nat} {f : List Nat → List Nat}
    {p : Nat × List Nat} (hp : p ∈ mapSetOp m k f) :
    p ∈ m ∨ p = (k, f (lookupD m k)) := by
  induction m with
  | nil =>
      right
      simpa [mapSetOp, lookupD] using hp
  | cons q rest ih =>
      obtain ⟨k', s⟩ := q
      by_cases hk : k' = k
      · subst hk
        simp only [mapSetOp, if_pos rfl] at hp
        rcases List.mem_cons.mp hp with h | h
        · right; simpa [lookupD] using h
        · left; exact List.mem_cons_of_mem _ h
      · simp only [mapSetOp, if_neg hk] at hp
        rcases List.mem_cons.mp hp with h | h
        · left; exact h ▸ List.mem_cons_self _ _
        · rcases ih h with h' | h'
          · left; exact List.mem_cons_of_mem _ h'
          · right; simpa [lookupD, hk] using h'

/-- Entries surviving `mapEraseKey m k` are old entries with a key other
than `k`. -/
theorem mem_mapEraseKey {m : LockSetMap} {k : Nat} {p : Nat × List Nat}
    (hp : p ∈ mapEraseKey m k) : p ∈ m ∧ p.1 ≠ k := by
  induction m with
  | nil => simp [mapEraseKey] at hp
  | cons q rest ih =>
      obtain ⟨k', s⟩ := q
      by_cases hk : k' = k
      · simp only [mapEraseKey, if_pos hk] at hp
        exact ⟨List.mem_cons_of_mem _ (ih hp).1, (ih hp).2⟩
      · simp only [mapEraseKey, if_neg hk] at hp
        rcases List.mem_cons.mp hp with h | h
        · subst h; exact ⟨List.mem_cons_self _ _, hk⟩
        · exact ⟨List.mem_cons_of_mem _ (ih h).1, (ih h).2⟩

/-- Reading `mapSetOp m k f` at `k` yields `f` of the old set. -/
theorem lookupD_mapSetOp (m : LockSetMap) (k : Nat)
    (f : List Nat → List Nat) :
    lookupD (mapSetOp m k f) k = f (lookupD m k) := by
  induction m with
  | nil => simp [mapSetOp, lookupD]
  | cons q rest ih =>
      obtain ⟨k', s⟩ := q
      by_cases hk : k' = k
      · subst hk; simp [mapSetOp, lookupD]
      · simp [mapSetOp, lookupD, hk, ih]

/-- Reading an erased key yields the empty set. -/
theorem lookupD_mapEraseKey (m : LockSetMap) (k : Nat) :
    lookupD (mapEraseKey m k) k = [] := by
  induction m with
  | nil => simp [mapEraseKey, lookupD]
  | cons q rest ih =>
      obtain ⟨k', s⟩ := q
      by_cases hk : k' = k
      · simp [mapEraseKey, hk, ih]
      · simp [mapEraseKey, lookupD, hk, ih]

/-- Operation `std::set::insert` never produces an empty set. -/
theorem insert_ne_nil (x : Nat) (s : List Nat) : List.insert x s ≠ [] := by
  by_cases h : x ∈ s
  · rw [List.insert_of_mem h]
    intro he
    rw [he] at h
    exact List.not_mem_nil x h
  · rw [List.insert_of_not_mem h]
    exact List.cons_ne_nil x s

/-- C5 (counterexample): on a graph where thread 1 holds lock 10 and nobody
waits, `hasDeadlock()` (correctly) reports no deadlock but leaves
`thread_waits = {1 ↦ ∅}`: the `thread_waits[current]` access inside
`hasCycle` inserts an empty set for the visited thread, breaking the pruning
invariant even though the invariant held before the call. -/
theorem has_deadlock_breaks_pruning :
    let g0 : ResourceGraph := ⟨[(1, [10])], []⟩
    Pruned g0 ∧ hasDeadlock g0 = false
      ∧ (hasDeadlockRun g0).2.thread_waits = [(1, [])]
      ∧ ¬ Pruned (hasDeadlockRun g0).2 := by
  decide

/-- C5 (amended): the four mutating operations `acquireLock`, `releaseLock`,
`waitForLock` and `stopWaiting` all preserve the pruning invariant;
`hasDeadlock` (the fifth operation of the claim) does not, as the
counterexample shows. -/
theorem mutators_preserve_pruning (g : ResourceGraph) (tid mtx : Nat)
    (h : Pruned g) :
    Pruned (acquireLock g tid mtx) ∧ Pruned (releaseLock g tid mtx)
      ∧ Pruned (waitForLock g tid mtx) ∧ Pruned (stopWaiting g tid mtx) := by
  obtain ⟨hh, hw⟩ := h
  have insertArm : ∀ (m : LockSetMap), PrunedMap m →
      PrunedMap (mapSetOp m tid (List.insert mtx)) := by
    intro m hm p hp
    rcases mem_mapSetOp hp with h' | h'
    · exact hm p h'
    · rw [h']
      exact insert_ne_nil mtx _
  have eraseArm : ∀ (m : LockSetMap), PrunedMap m →
      PrunedMap
        (if lookupD (mapSetOp m tid (fun s => setErase s mtx)) tid = [] then
          mapEraseKey (mapSetOp m tid (fun s => setErase s mtx)) tid
        else mapSetOp m tid (fun s => setErase s mtx)) := by
    intro m hm
    by_cases hcase :
        lookupD (mapSetOp m tid (fun s => setErase s mtx)) tid = []
    · rw [if_pos hcase]
      intro p hp
      obtain ⟨hpm, hpk⟩ := mem_mapEraseKey hp
      rcases mem_mapSetOp hpm with h' | h'
      · exact hm p h'
      · exact absurd (congrArg Prod.fst h') hpk
    · rw [if_neg hcase]
      intro p hp
      rcases mem_mapSetOp hp with h' | h'
      · exact hm p h'
      · rw [h']
        intro hempty
        exact hcase (by rw [lookupD_mapSetOp]; exact hempty)
  refine ⟨⟨insertArm _ hh, hw⟩, ⟨?_, hw⟩, ⟨hh, insertArm _ hw⟩, ⟨hh, ?_⟩⟩
  · exact eraseArm _ hh
  · exact eraseArm _ hw

/-- Witness for the amended C5 at a concrete pruned graph. -/
theorem mutators_preserve_pruning_witness :
    Pruned ⟨[(1, [10])], [(2, [10])]⟩
      ∧ (Pruned (acquireLock ⟨[(1, [10])], [(2, [10])]⟩ 2 11)
        ∧ Pruned (releaseLock ⟨[(1, [10])], [(2, [10])]⟩ 2 11)
        ∧ Pruned (waitForLock ⟨[(1, [10])], [(2, [10])]⟩ 2 11)
        ∧ Pruned (stopWaiting ⟨[(1, [10])], [(2, [10])]⟩ 2 11)) :=
  ⟨by decide, mutators_preserve_pruning ⟨[(1, [10])], [(2, [10])]⟩ 2 11
    (by decide)⟩

/-- After `releaseLock g tid mtx`, thread `tid` no longer holds `mtx`. -/
theorem releaseLock_removes_hold (g : ResourceGraph) (tid mtx : Nat) :
    mtx ∉ lookupD (releaseLock g tid mtx).thread_holds tid := by
  unfold releaseLock
  by_cases hcase :
      lookupD (mapSetOp g.thread_holds tid (fun s => setErase s mtx)) tid = []
  · simp only [hcase, if_pos]
    rw [lookupD_mapEraseKey]
    exact List.not_mem_nil mtx
  · simp only [hcase, if_neg, not_false_iff]
    rw [lookupD_mapSetOp]
    intro hmem
    have := List.of_mem_filter hmem
    simp at this

/-- C7: `unlock()` on an unlocked Tracked Lock changes nothing; destruction
releases the underlying mutex and removes the hold edge exactly when the
`locked` flag was set at destruction time, so a destroyed Tracked Lock never
leaves the flag set or the hold edge in place. -/
theorem tracked_mutex_unlock_destruct (t : TrackedMutex) (tid : Nat) :
    (t.locked = false → t.unlock tid = t)
      ∧ (t.locked = true →
          (t.destruct tid).mtxHeld = false
            ∧ (t.destruct tid).locked = false
            ∧ t.mtx ∉ lookupD (t.destruct tid).graph.thread_holds tid)
      ∧ (t.locked = false → t.destruct tid = t)
      ∧ (t.destruct tid).locked = false := by
  refine ⟨?_, ?_, ?_, ?_⟩
  · intro h
    simp [TrackedMutex.unlock, h]
  · intro h
    simp only [TrackedMutex.destruct, TrackedMutex.unlock, h, if_true]
    refine ⟨?_, ?_, ?_⟩
    · simp
    · simp
    · simpa using releaseLock_removes_hold t.graph tid t.mtx
  · intro h
    simp [TrackedMutex.destruct, h]
  · by_cases h : t.locked
    · simp [TrackedMutex.destruct, TrackedMutex.unlock, h]
    · simp only [Bool.not_eq_true] at h
      simp [TrackedMutex.destruct, h]

/-- The `operator[]` key-creating access changes no lookup. -/
theorem lookupD_mapAccess (m : LockSetMap) (k k' : Nat) :
    lookupD (mapAccess m k) k' = lookupD m k' := by
  unfold mapAccess
  by_cases h : containsKey m k
  · rw [if_pos h]
  · rw [if_neg h]
    induction m with
    | nil => by_cases hk : k = k' <;> simp [lookupD, hk]
    | cons q rest ih =>
        obtain ⟨k0, s0⟩ := q
        by_cases hk0 : k0 = k'
        · simp [lookupD, hk0]
        · simp only [containsKey] at h
          by_cases hk0k : k0 = k
          · simp [hk0k] at h
          · simp only [List.cons_append, lookupD, if_neg hk0]
            exact ih (by simpa [hk0k] using h)

/-- A non-trivial lookup names an actual entry. -/
theorem entry_of_lookupD {m : LockSetMap} {t L : Nat}
    (h : L ∈ lookupD m t) : (t, lookupD m t) ∈ m := by
  induction m with
  | nil => simp [lookupD] at h
  | cons q rest ih =>
      obtain ⟨k', s⟩ := q
      by_cases hk : k' = t
      · subst hk
        simp only [lookupD, if_pos rfl] at h ⊢
        exact List.mem_cons_self _ _
      · simp only [lookupD, if_neg hk] at h ⊢
        exact List.mem_cons_of_mem _ (ih h)

/-- With duplicate-free keys, an entry is what lookup returns. -/
theorem lookupD_entry {m : LockSetMap} {t : Nat} {s : List Nat}
    (hnd : NodupKeys m) (h : (t, s) ∈ m) : lookupD m t = s := by
  induction m with
  | nil => simp at h
  | cons q rest ih =>
      obtain ⟨k', s'⟩ := q
      have hnd' : NodupKeys rest := by
        have := hnd
        simp only [NodupKeys, List.map_cons, List.nodup_cons] at this
        exact this.2
      rcases List.mem_cons.mp h with heq | hmem
      · injection heq with h1 h2
        subst h1; subst h2
        simp [lookupD]
      · by_cases hk : k' = t
        · exfalso
          subst hk
          have : k' ∈ rest.map Prod.fst :=
            List.mem_map.mpr ⟨(k', s), hmem, rfl⟩
          simp only [NodupKeys, List.map_cons, List.nodup_cons] at hnd
          exact hnd.1 this
        · simp only [lookupD, if_neg hk]
          exact ih hnd' hmem

/-- Entry keys are in `holdKeys`. -/
theorem mem_holdKeys_of_entry {m : LockSetMap} {p : Nat × List Nat}
    (h : p ∈ m) : p.1 ∈ holdKeys m := by
  simp only [holdKeys, List.mem_toFinset, List.mem_map]
  exact ⟨p, h, rfl⟩

/-- A thread holding anything is a key of the holds map. -/
theorem holdKeys_of_lookupD {m : LockSetMap} {t L : Nat}
    (h : L ∈ lookupD m t) : t ∈ holdKeys m :=
  mem_holdKeys_of_entry (entry_of_lookupD h)

/-- A thread whose successors are all safe is itself safe. -/
theorem safe_of_successors {holds : LockSetMap} {W : Nat → List Nat}
    {cur : Nat}
    (h : ∀ t', EdgeFn holds W cur t' → SafeFrom holds W t') :
    SafeFrom holds W cur := by
  intro u hru hcyc
  rcases Relation.ReflTransGen.cases_head hru with heq | ⟨c, hedge, hcu⟩
  · subst heq
    rcases Relation.TransGen.head'_iff.mp hcyc with ⟨c, hedge, hcu⟩
    exact h c hedge cur hcu hcyc
  · exact h c hedge u hcu hcyc

/-- Every thread on a cycle holds some lock, hence is a key of the holds
map. -/
theorem cycle_node_mem_holdKeys {holds : LockSetMap} {W : Nat → List Nat}
    {t : Nat} (h : Relation.TransGen (EdgeFn holds W) t t) :
    t ∈ holdKeys holds := by
  rcases Relation.TransGen.tail'_iff.mp h with ⟨b, _, hedge⟩
  obtain ⟨L, _, hL⟩ := hedge
  exact holdKeys_of_lookupD hL

/-- Correctness of the inner holder loop: under the DFS invariants (with the
current thread `cur` grey and `lockId` one of the locks it waits for), the
loop returns; `true` exhibits a cycle, `false` additionally certifies every
examined holder of `lockId` among `entries` safe. -/
theorem cycleHoldersLoop_spec (holds : LockSetMap) (W : Nat → List Nat)
    (hnd : NodupKeys holds) (n : Nat)
    (rec : Nat → Finset Nat → Finset Nat → LockSetMap → Option DFSResult)
    (hrec : CycleCallSpec holds W n rec) (cur lockId : Nat)
    (hlock : lockId ∈ W cur) :
    ∀ entries, (∀ e ∈ entries, e ∈ holds) →
      ∀ vis stk waits, stk ⊆ vis → cur ∈ stk →
        (holdKeys holds \ vis).card < n →
        (∀ t ∈ vis, t ∉ stk → SafeFrom holds W t) →
        (∀ x ∈ stk, Relation.ReflTransGen (EdgeFn holds W) x cur) →
        (∀ k, lookupD waits k = W k) →
        ∃ b v s w,
          cycleHoldersLoop rec lockId entries vis stk waits
              = some (b, v, s, w)
            ∧ vis ⊆ v
            ∧ (∀ k, lookupD w k = W k)
            ∧ (b = true → ∃ t, Relation.TransGen (EdgeFn holds W) t t)
            ∧ (b = false → s = stk
                ∧ (∀ t ∈ v, t ∉ stk → SafeFrom holds W t)
                ∧ ∀ e ∈ entries, lockId ∈ e.2 → SafeFrom holds W e.1) := by
  intro entries
  induction entries with
  | nil =>
      intro _ vis stk waits _ _ _ hsafe _ hW
      refine ⟨false, vis, stk, waits, rfl, Finset.Subset.refl _, hW, ?_, ?_⟩
      · intro h; simp at h
      · intro _
        exact ⟨rfl, hsafe, by simp⟩
  | cons e rest ih =>
      obtain ⟨tid, held⟩ := e
      intro hsub vis stk waits hstkvis hcurstk hcard hsafe hpaths hW
      have hsubrest : ∀ e ∈ rest, e ∈ holds := fun e he =>
        hsub e (List.mem_cons_of_mem _ he)
      have hentry : (tid, held) ∈ holds := hsub _ (List.mem_cons_self _ _)
      by_cases h1 : lockId ∈ held
      · have hedge : EdgeFn holds W cur tid :=
          ⟨lockId, hlock, by rw [lookupD_entry hnd hentry]; exact h1⟩
        by_cases h2 : tid ∈ vis
        · by_cases h3 : tid ∈ stk
          · -- holder on the recursion stack: cycle reported
            refine ⟨true, vis, stk, waits, ?_, Finset.Subset.refl _, hW,
              ?_, ?_⟩
            · simp only [cycleHoldersLoop, if_pos h1,
                if_neg (not_not_intro h2), if_pos h3]
            · intro _
              exact ⟨tid, Relation.TransGen.tail' (hpaths tid h3) hedge⟩
            · intro h; simp at h
          · -- black holder: already safe, loop continues unchanged
            obtain ⟨b, v, s, w, heq, hv, hW2, htrue, hfalse⟩ :=
              ih hsubrest vis stk waits hstkvis hcurstk hcard hsafe hpaths hW
            refine ⟨b, v, s, w, ?_, hv, hW2, htrue, ?_⟩
            · rw [← heq]
              simp only [cycleHoldersLoop, if_pos h1,
                if_neg (not_not_intro h2), if_neg h3]
            · intro hb
              obtain ⟨hs, hsafe2, hexam⟩ := hfalse hb
              refine ⟨hs, hsafe2, ?_⟩
              intro e he hlocke
              rcases List.mem_cons.mp he with heq2 | he'
              · subst heq2
                exact hsafe tid h2 h3
              · exact hexam e he' hlocke
        · -- unvisited holder: recurse into it
          have htidkeys : tid ∈ holdKeys holds :=
            mem_holdKeys_of_entry hentry
          obtain ⟨b', v', s', w', heqr, hvv', htidv', hW', htrue', hfalse'⟩ :=
            hrec tid vis stk waits htidkeys h2 hstkvis hcard hsafe
              (fun x hx => (hpaths x hx).tail hedge) hW
          cases b' with
          | true =>
              refine ⟨true, v', s', w', ?_, hvv', hW',
                fun _ => htrue' rfl, ?_⟩
              · simp only [cycleHoldersLoop, if_pos h1, if_pos h2, heqr]
              · intro h; simp at h
          | false =>
              obtain ⟨hs', hsafe'⟩ := hfalse' rfl
              rw [hs'] at heqr
              obtain ⟨b'', v'', s'', w'', heq2, hv2, hW2, htrue2, hfalse2⟩ :=
                ih hsubrest v' stk w' (hstkvis.trans hvv') hcurstk
                  (lt_of_le_of_lt
                    (Finset.card_le_card
                      (Finset.sdiff_subset_sdiff (Finset.Subset.refl _) hvv'))
                    hcard)
                  hsafe' hpaths hW'
              refine ⟨b'', v'', s'', w'', ?_, hvv'.trans hv2, hW2,
                htrue2, ?_⟩
              · rw [← heq2]
                simp only [cycleHoldersLoop, if_pos h1, if_pos h2, heqr]
              · intro hb
                obtain ⟨hs2, hsafe2, hexam2⟩ := hfalse2 hb
                refine ⟨hs2, hsafe2, ?_⟩
                intro e he hlocke
                rcases List.mem_cons.mp he with heq3 | he'
                · subst heq3
                  exact hsafe2 tid (hv2 htidv')
                    (fun hc => h2 (hstkvis hc))
                · exact hexam2 e he' hlocke
      · -- current lock not held by this entry: skip
        obtain ⟨b, v, s, w, heq, hv, hW2, htrue, hfalse⟩ :=
          ih hsubrest vis stk waits hstkvis hcurstk hcard hsafe hpaths hW
        refine ⟨b, v, s, w, ?_, hv, hW2, htrue, ?_⟩
        · rw [← heq]
          simp only [cycleHoldersLoop, if_neg h1]
        · intro hb
          obtain ⟨hs, hsafe2, hexam⟩ := hfalse hb
          refine ⟨hs, hsafe2, ?_⟩
          intro e he hlocke
          rcases List.mem_cons.mp he with heq2 | he'
          · subst heq2
            exact absurd hlocke h1
          · exact hexam e he' hlocke

/-- Correctness of the outer loop over the locks the grey thread `cur`
waits for: a `false` return certifies every holder of every listed lock
safe. -/
theorem cycleLocksLoop_spec (holds : LockSetMap) (W : Nat → List Nat)
    (hnd : NodupKeys holds) (n : Nat)
    (rec : Nat → Finset Nat → Finset Nat → LockSetMap → Option DFSResult)
    (hrec : CycleCallSpec holds W n rec) (cur : Nat) :
    ∀ locks : List Nat, (∀ L ∈ locks, L ∈ W cur) →
      ∀ vis stk waits, stk ⊆ vis → cur ∈ stk →
        (holdKeys holds \ vis).card < n →
        (∀ t ∈ vis, t ∉ stk → SafeFrom holds W t) →
        (∀ x ∈ stk, Relation.ReflTransGen (EdgeFn holds W) x cur) →
        (∀ k, lookupD waits k = W k) →
        ∃ b v s w,
          cycleLocksLoop rec holds locks vis stk waits = some (b, v, s, w)
            ∧ vis ⊆ v
            ∧ (∀ k, lookupD w k = W k)
            ∧ (b = true → ∃ t, Relation.TransGen (EdgeFn holds W) t t)
            ∧ (b = false → s = stk
                ∧ (∀ t ∈ v, t ∉ stk → SafeFrom holds W t)
                ∧ ∀ L ∈ locks, ∀ e ∈ holds, L ∈ e.2 →
                    SafeFrom holds W e.1) := by
  intro locks
  induction locks with
  | nil =>
      intro _ vis stk waits _ _ _ hsafe _ hW
      refine ⟨false, vis, stk, waits, rfl, Finset.Subset.refl _, hW, ?_, ?_⟩
      · intro h; simp at h
      · intro _
        exact ⟨rfl, hsafe, by simp⟩
  | cons lockId rest ih =>
      intro hlocks vis stk waits hstkvis hcurstk hcard hsafe hpaths hW
      have hlock : lockId ∈ W cur := hlocks _ (List.mem_cons_self _ _)
      have hlocksrest : ∀ L ∈ rest, L ∈ W cur := fun L hL =>
        hlocks L (List.mem_cons_of_mem _ hL)
      obtain ⟨b', v', s', w', heqh, hvv', hW', htrue', hfalse'⟩ :=
        cycleHoldersLoop_spec holds W hnd n rec hrec cur lockId hlock holds
          (fun e he => he) vis stk waits hstkvis hcurstk hcard hsafe
          hpaths hW
      cases b' with
      | true =>
          refine ⟨true, v', s', w', ?_, hvv', hW',
            fun _ => htrue' rfl, ?_⟩
          · simp only [cycleLocksLoop, heqh]
          · intro h; simp at h
      | false =>
          obtain ⟨hs', hsafe', hexam'⟩ := hfalse' rfl
          rw [hs'] at heqh
          obtain ⟨b'', v'', s'', w'', heq2, hv2, hW2, htrue2, hfalse2⟩ :=
            ih hlocksrest v' stk w' (hstkvis.trans hvv') hcurstk
              (lt_of_le_of_lt
                (Finset.card_le_card
                  (Finset.sdiff_subset_sdiff (Finset.Subset.refl _) hvv'))
                hcard)
              hsafe' hpaths hW'
          refine ⟨b'', v'', s'', w'', ?_, hvv'.trans hv2, hW2, htrue2, ?_⟩
          · rw [← heq2]
            simp only [cycleLocksLoop, heqh]
          · intro hb
            obtain ⟨hs2, hsafe2, hexam2⟩ := hfalse2 hb
            refine ⟨hs2, hsafe2, ?_⟩
            intro L hL e he hLe
            rcases List.mem_cons.mp hL with heq3 | hL'
            · subst heq3
              exact hexam' e he hLe
            · exact hexam2 L hL' e he hLe

/-- The central DFS lemma: `hasCycle` at budget `n` satisfies
`CycleCallSpec` — in particular it never runs out of fuel under the stated
budget, reports `true` only in the presence of a genuine wait-for cycle, and
on a `false` return leaves every thread it explored provably safe. -/
theorem hasCycle_spec (holds : LockSetMap) (W : Nat → List Nat)
    (hnd : NodupKeys holds) :
    ∀ n, CycleCallSpec holds W n
      (fun t v s w => hasCycle n holds t v s w) := by
  intro n
  induction n with
  | zero =>
      intro cur vis stk waits _ _ _ hcard _ _ _
      exact absurd hcard (by simp)
  | succ n ih =>
      intro cur vis stk waits hkey hvis hsub hcard hsafe hpaths hW
      have hcur_sdiff : cur ∈ holdKeys holds \ vis :=
        Finset.mem_sdiff.mpr ⟨hkey, hvis⟩
      have hcard' : (holdKeys holds \ insert cur vis).card < n := by
        rw [Finset.sdiff_insert, Finset.card_erase_of_mem hcur_sdiff]
        have hpos : 0 < (holdKeys holds \ vis).card :=
          Finset.card_pos.mpr ⟨cur, hcur_sdiff⟩
        omega
      have hWacc : ∀ k, lookupD (mapAccess waits cur) k = W k := by
        intro k
        rw [lookupD_mapAccess, hW]
      have hlocks : ∀ L ∈ lookupD (mapAccess waits cur) cur, L ∈ W cur := by
        intro L hL
        rwa [hWacc] at hL
      obtain ⟨b, v, s, w, heq, hv, hW2, htrue, hfalse⟩ :=
        cycleLocksLoop_spec holds W hnd n
          (fun t v s w => hasCycle n holds t v s w) ih cur
          (lookupD (mapAccess waits cur) cur) hlocks
          (insert cur vis) (insert cur stk) (mapAccess waits cur)
          (Finset.insert_subset_insert _ hsub)
          (Finset.mem_insert_self _ _) hcard'
          (by
            intro t ht hts
            rcases Finset.mem_insert.mp ht with heqt | htv
            · exact absurd (heqt ▸ Finset.mem_insert_self cur stk) hts
            · exact hsafe t htv fun hc =>
                hts (Finset.mem_insert_of_mem hc))
          (by
            intro x hx
            rcases Finset.mem_insert.mp hx with heqx | hxs
            · subst heqx
              exact Relation.ReflTransGen.refl
            · exact hpaths x hxs)
          hWacc
      cases b with
      | true =>
          refine ⟨true, v, s, w, ?_,
            (Finset.subset_insert _ _).trans hv,
            hv (Finset.mem_insert_self _ _), hW2,
            fun _ => htrue rfl, ?_⟩
          · simp only [hasCycle, heq]
          · intro h; simp at h
      | false =>
          obtain ⟨hs, hsafe2, hexam⟩ := hfalse rfl
          have hcurstk : cur ∉ stk := fun hc => hvis (hsub hc)
          refine ⟨false, v, s.erase cur, w, ?_,
            (Finset.subset_insert _ _).trans hv,
            hv (Finset.mem_insert_self _ _), hW2, ?_, ?_⟩
          · simp only [hasCycle, heq]
          · intro h; simp at h
          · intro _
            refine ⟨by rw [hs, Finset.erase_insert hcurstk], ?_⟩
            intro t htv htstk
            by_cases hteq : t = cur
            · subst hteq
              refine safe_of_successors ?_
              intro t' hedge
              obtain ⟨L, hLW, hLh⟩ := hedge
              have hLlocks : L ∈ lookupD (mapAccess waits t) t := by
                rwa [hWacc]
              exact hexam L hLlocks (t', lookupD holds t')
                (entry_of_lookupD hLh) hLh
            · have hnotin : t ∉ insert cur stk := by
                intro hc
                rcases Finset.mem_insert.mp hc with h | h
                · exact hteq h
                · exact htstk h
              exact hsafe2 t htv hnotin

/-- Correctness of the outer `hasDeadlock` loop: starting from an empty
recursion stack, a `true` answer exhibits a cycle, and a `false` answer
certifies every listed root thread safe. -/
theorem hasDeadlockLoop_spec (holds : LockSetMap) (W : Nat → List Nat)
    (hnd : NodupKeys holds) :
    ∀ entries : LockSetMap, (∀ e ∈ entries, e ∈ holds) →
      ∀ vis waits,
        (∀ t ∈ vis, SafeFrom holds W t) →
        (∀ k, lookupD waits k = W k) →
        ((hasDeadlockLoop holds entries vis ∅ waits).1 = true →
            ∃ t, Relation.TransGen (EdgeFn holds W) t t)
          ∧ ((hasDeadlockLoop holds entries vis ∅ waits).1 = false →
            ∀ e ∈ entries, SafeFrom holds W e.1) := by
  intro entries
  induction entries with
  | nil =>
      intro _ vis waits _ _
      exact ⟨fun h => by simp [hasDeadlockLoop] at h, fun _ => by simp⟩
  | cons e rest ih =>
      obtain ⟨tid, s0⟩ := e
      intro hsub vis waits hsafe hW
      have hsubrest : ∀ e ∈ rest, e ∈ holds := fun e he =>
        hsub e (List.mem_cons_of_mem _ he)
      have hentry : (tid, s0) ∈ holds := hsub _ (List.mem_cons_self _ _)
      by_cases hvis : tid ∈ vis
      · have heqloop :
            hasDeadlockLoop holds ((tid, s0) :: rest) vis ∅ waits
              = hasDeadlockLoop holds rest vis ∅ waits := by
          simp only [hasDeadlockLoop, if_neg (not_not_intro hvis)]
        obtain ⟨h1, h2⟩ := ih hsubrest vis waits hsafe hW
        rw [heqloop]
        refine ⟨h1, ?_⟩
        intro hfalse e he
        rcases List.mem_cons.mp he with heq | he'
        · subst heq
          exact hsafe tid hvis
        · exact h2 hfalse e he'
      · have hcard : (holdKeys holds \ vis).card < holds.length + 1 := by
          have h1 : (holdKeys holds \ vis).card ≤ (holdKeys holds).card :=
            Finset.card_le_card (Finset.sdiff_subset)
          have h2 : (holdKeys holds).card ≤ (holds.map Prod.fst).length :=
            List.toFinset_card_le _
          simp only [List.length_map] at h2
          omega
        obtain ⟨b, v, s, w, heq, hv, htidv, hW2, htrue, hfalse⟩ :=
          hasCycle_spec holds W hnd (holds.length + 1) tid vis ∅ waits
            (mem_holdKeys_of_entry hentry) hvis (Finset.empty_subset _)
            hcard (fun t ht _ => hsafe t ht)
            (fun x hx => absurd hx (Finset.not_mem_empty x)) hW
        cases b with
        | true =>
            have heqloop :
                (hasDeadlockLoop holds ((tid, s0) :: rest) vis ∅ waits).1
                  = true := by
              simp only [hasDeadlockLoop, if_pos hvis, heq]
            refine ⟨fun _ => htrue rfl, ?_⟩
            intro hc
            rw [heqloop] at hc
            simp at hc
        | false =>
            obtain ⟨hs, hsafe2⟩ := hfalse rfl
            rw [hs] at heq
            have heqloop :
                hasDeadlockLoop holds ((tid, s0) :: rest) vis ∅ waits
                  = hasDeadlockLoop holds rest v ∅ w := by
              simp only [hasDeadlockLoop, if_pos hvis, heq]
            have hsafev : ∀ t ∈ v, SafeFrom holds W t := fun t ht =>
              hsafe2 t ht (Finset.not_mem_empty t)
            obtain ⟨h1, h2⟩ := ih hsubrest v w hsafev hW2
            rw [heqloop]
            refine ⟨h1, ?_⟩
            intro hfalse2 e he
            rcases List.mem_cons.mp he with heq2 | he'
            · subst heq2
              exact hsafev tid htidv
            · exact h2 hfalse2 e he'

/-- C3: on any snapshot with duplicate-free map keys in which each lock is
held by at most one thread, `hasDeadlock()` returns `true` iff the wait-for
graph has a cycle `T₀ → L₀ → T₁ → … → Tₙ = T₀` (each `Tᵢ` waits for `Lᵢ`,
held by `Tᵢ₊₁`); and on the particular snapshot where threads 2 and 3 both
wait for lock 10 held by thread 1 — two threads waiting on the same held
lock, no cyclic chain — it returns `false`. -/
theorem has_deadlock_iff_cycle (g : ResourceGraph)
    (hnh : NodupKeys g.thread_holds) (_hnw : NodupKeys g.thread_waits)
    (_hone : AtMostOneHolder g.thread_holds) :
    (hasDeadlock g = true ↔ GraphHasCycle g)
      ∧ hasDeadlock ⟨[(1, [10])], [(2, [10]), (3, [10])]⟩ = false := by
  have hspec :=
    hasDeadlockLoop_spec g.thread_holds (lookupD g.thread_waits) hnh
      g.thread_holds (fun e he => he) ∅ g.thread_waits
      (fun t ht => absurd ht (Finset.not_mem_empty t)) (fun k => rfl)
  have hdl : hasDeadlock g
      = (hasDeadlockLoop g.thread_holds g.thread_holds ∅ ∅
          g.thread_waits).1 := rfl
  refine ⟨⟨?_, ?_⟩, by decide⟩
  · intro h
    exact hspec.1 (hdl ▸ h)
  · intro hcyc
    by_contra hne
    have hfalse : hasDeadlock g = false := by
      cases hb : hasDeadlock g
      · rfl
      · exact absurd hb hne
    obtain ⟨t, ht⟩ := hcyc
    have htk : t ∈ holdKeys g.thread_holds := cycle_node_mem_holdKeys ht
    obtain ⟨p, hp, hfst⟩ :
        ∃ p ∈ g.thread_holds, p.1 = t := by
      simpa [holdKeys, List.mem_toFinset, List.mem_map] using htk
    have hsafe := hspec.2 (hdl ▸ hfalse) p hp
    rw [hfst] at hsafe
    exact hsafe t Relation.ReflTransGen.refl ht

/-- Witness for C3: the two-thread deadlock snapshot (thread 1 holds lock
10 and waits for lock 20; thread 2 holds lock 20 and waits for lock 10) has
duplicate-free keys and unique holders, and its wait-for graph indeed has a
cycle, so `hasDeadlock` returns `true` there by the theorem. -/
theorem has_deadlock_iff_cycle_witness :
    (NodupKeys ([(1, [10]), (2, [20])] : LockSetMap)
        ∧ NodupKeys ([(1, [20]), (2, [10])] : LockSetMap)
        ∧ AtMostOneHolder [(1, [10]), (2, [20])])
      ∧ ((hasDeadlock ⟨[(1, [10]), (2, [20])], [(1, [20]), (2, [10])]⟩ = true
          ↔ GraphHasCycle ⟨[(1, [10]), (2, [20])], [(1, [20]), (2, [10])]⟩)
        ∧ hasDeadlock ⟨[(1, [10])], [(2, [10]), (3, [10])]⟩ = false) :=
  ⟨⟨by decide, by decide, by decide⟩,
    has_deadlock_iff_cycle ⟨[(1, [10]), (2, [20])], [(1, [20]), (2, [10])]⟩
      (by decide) (by decide) (by decide)⟩

/-- Witness for C7 at a concrete locked Tracked Lock. -/
theorem tracked_mutex_unlock_destruct_witness :
    let t : TrackedMutex := ⟨10, true, ⟨[(1, [10])], []⟩, true⟩
    (t.locked = true)
      ∧ ((t.destruct 1).mtxHeld = false
          ∧ (t.destruct 1).locked = false
          ∧ t.mtx ∉ lookupD (t.destruct 1).graph.thread_holds 1) :=
  ⟨rfl, (tracked_mutex_unlock_destruct ⟨10, true, ⟨[(1, [10])], []⟩, true⟩
      1).2.1 rfl⟩

end CppThreadLearning
